import Mathlib

/-!
Verification of the deprecated-block remover (`remove_deprecated_methods.py`).

The document is modelled as a `List Char` (the Python `content` string); the
line list produced by `content.split('\n')` is modelled by `splitNl`.  All
definitions are direct translations of the Python source:

* `findDeprecatedMethods`  ⟶  `find_deprecated_methods` (lines 41-116),
* `removeDeprecatedBlocks` ⟶  `remove_deprecated_blocks` (lines 119-146),
* `cleanEmptyLines`        ⟶  `clean_empty_lines` (lines 149-155),
* `transform`              ⟶  the pipeline run by `main` (scan, remove,
  normalize; when no block is found `main` returns without writing).

Character classes (`str.strip`, regex `\s`, `\w`) are modelled over their
ASCII fragment, which is exact on every input considered here.
-/

/-- One entry of the `deprecated_blocks` list built by the scanner
(the dict `{'start', 'end', 'name', 'lines'}`, 0-based line indices). -/
structure Block where
  start : Nat
  endLine : Nat
  name : List Char
  lineCount : Nat
deriving Repr, DecidableEq

/-- The marker substring tested by `'@available(*, deprecated' in line`. -/
def deprecatedMarker : List Char := "@available(*, deprecated".toList

/-- Python `str.split('\n')`: note that the empty string yields `[[]]`,
one empty line. -/
def splitNl : List Char → List (List Char)
  | [] => [[]]
  | c :: cs =>
    if c = '\n' then [] :: splitNl cs
    else
      match splitNl cs with
      | [] => [[c]]
      | l :: ls => (c :: l) :: ls

/-- Python `'\n'.join(lines)`. -/
def joinNl : List (List Char) → List Char
  | [] => []
  | [l] => l
  | l :: l2 :: ls => l ++ '\n' :: joinNl (l2 :: ls)

/-- Whitespace for `str.strip` / regex `\s` (ASCII fragment). -/
def isPySpace (c : Char) : Bool :=
  c = ' ' || c = '\t' || c = '\n' || c = '\r' || c = '\x0b' || c = '\x0c'

/-- Word characters for regex `\w` (ASCII fragment). -/
def isWordChar (c : Char) : Bool :=
  (('a' ≤ c && c ≤ 'z') || ('A' ≤ c && c ≤ 'Z') || ('0' ≤ c && c ≤ '9') || c = '_')

/-- Python `str.strip()`. -/
def pyStrip (l : List Char) : List Char :=
  ((l.dropWhile isPySpace).reverse.dropWhile isPySpace).reverse

/-- Whether `pat` is an initial segment of `s`. -/
def leadsWith : List Char → List Char → Bool
  | [], _ => true
  | _ :: _, [] => false
  | a :: as, b :: bs => a == b && leadsWith as bs

/-- Python substring test `pat in s`. -/
def occursIn (pat : List Char) : List Char → Bool
  | [] => pat.isEmpty
  | c :: rest => leadsWith pat (c :: rest) || occursIn pat rest

/-- The condition of the scanner's inner `while` loop (source line 60):
the stripped line is empty or starts with `//`. -/
def blankOrComment (l : List Char) : Bool :=
  (pyStrip l).isEmpty || leadsWith ['/', '/'] (pyStrip l)

/-- The `j` loop of the scanner (source lines 59-61): starting from absolute
index `j` whose suffix of the line list is `suffix`, return the first index
holding a non-blank, non-comment line (`ls.length` when there is none). -/
def seekDeclAux : List (List Char) → Nat → Nat
  | [], j => j
  | l :: rest, j => if blankOrComment l then seekDeclAux rest (j + 1) else j

/-- Attempt of the regex `func\s+(\w+)` at one position: after literal
`func`, one or more `\s`, then the greedy `\w+` capture. -/
def matchFuncAt : List Char → Option (List Char)
  | 'f' :: 'u' :: 'n' :: 'c' :: rest =>
    let ws := rest.takeWhile isPySpace
    if ws.isEmpty then none
    else
      let w := (rest.dropWhile isPySpace).takeWhile isWordChar
      if w.isEmpty then none else some w
  | _ => none

/-- `re.search(r'func\s+(\w+)', s)`: leftmost match, returning the capture. -/
def searchFunc : List Char → Option (List Char)
  | [] => none
  | c :: rest =>
    match matchFuncAt (c :: rest) with
    | some w => some w
    | none => searchFunc rest

/-- Method-name extraction of source lines 70-74, applied to the stripped
declaration line. -/
def extractName (sig : List Char) : List Char :=
  if occursIn "func ".toList sig then
    match searchFunc sig with
    | some w => w
    | none => "Unknown".toList
  else "Unknown".toList

/-- The character loop of source lines 86-96 over one line: given the running
brace count and the `found_opening` flag, return the updated count and flag
plus whether the inner `break` fired (matching close brace found). -/
def scanChars : List Char → Int → Bool → Int × Bool × Bool
  | [], count, found => (count, found, false)
  | c :: rest, count, found =>
    if c = '\x7b' then scanChars rest (count + 1) true
    else if c = '\x7d' then
      if found && count - 1 = 0 then (count - 1, found, true)
      else scanChars rest (count - 1) found
    else scanChars rest count found

/-- The `k` loop of source lines 82-99: `suffix` is the line-list suffix at
absolute index `k`; `d` is the current value of `end_line` (initially the
declaration index `j`, and never reassigned except by the inner break). -/
def findEndAux : List (List Char) → Nat → Int → Bool → Nat → Nat
  | [], _, _, _, d => d
  | l :: rest, k, count, found, d =>
    match scanChars l count found with
    | (c, f, true) => k
    | (c, f, false) => if f && c = 0 then d else findEndAux rest (k + 1) c f d

/-- The outer `while i < len(lines)` loop of `find_deprecated_methods`
(source lines 50-114).  `fuel` only bounds the number of iterations; since
`i` strictly increases, `ls.length + 1` iterations always suffice. -/
def findFromAux (ls : List (List Char)) : Nat → Nat → List Block
  | 0, _ => []
  | Nat.succ fuel, i =>
    match ls.drop i with
    | [] => []
    | line :: _ =>
      if occursIn deprecatedMarker line then
        let j := seekDeclAux (ls.drop (i + 1)) (i + 1)
        match ls.drop j with
        | [] => findFromAux ls fuel (i + 1)
        | sigLine :: _ =>
          let e := findEndAux (ls.drop j) j 0 false j
          { start := i, endLine := e, name := extractName (pyStrip sigLine),
            lineCount := e - i + 1 } :: findFromAux ls fuel (e + 1)
      else findFromAux ls fuel (i + 1)

/-- `find_deprecated_methods(content)` (source lines 41-116). -/
def findDeprecatedMethods (content : List Char) : List Block :=
  findFromAux (splitNl content) ((splitNl content).length + 1) 0

/-- One line printed at source line 109 for each found block
(`name`, 1-based first and last line, line count).  The discard branch at
source lines 63-65 prints nothing. -/
structure Report where
  rname : List Char
  firstLine : Nat
  lastLine : Nat
  numLines : Nat
deriving Repr, DecidableEq

/-- The report printed for one block. -/
def reportOf (b : Block) : Report :=
  ⟨b.name, b.start + 1, b.endLine + 1, b.lineCount⟩

/-- Everything `find_deprecated_methods` prints about found blocks: exactly
one report per appended block, in order (source lines 102-109). -/
def scanReports (content : List Char) : List Report :=
  (findDeprecatedMethods content).map reportOf

/-- Python `del lines[a:b]` : remove the (clamped) index range `[a, b)`. -/
def pyDelSlice (a b : Nat) (l : List (List Char)) : List (List Char) :=
  l.take a ++ l.drop (max a b)

/-- The key ordering of `sorted(key=lambda x: x['start'], reverse=True)`. -/
def blockGE (a b : Block) : Prop := b.start ≤ a.start

instance : DecidableRel blockGE := fun a b => Nat.decLe b.start a.start

instance : IsTotal Block blockGE := ⟨fun a b => Nat.le_total b.start a.start⟩

instance : IsTrans Block blockGE := ⟨fun _ _ _ hab hbc => Nat.le_trans hbc hab⟩

/-- `sorted(deprecated_blocks, key=lambda x: x['start'], reverse=True)`
(source line 127); insertion sort is stable, as Python's sort is. -/
def pySortDesc (blocks : List Block) : List Block :=
  List.insertionSort blockGE blocks

/-- The deletion loop of `remove_deprecated_blocks` (source lines 131-142),
acting on the line list. -/
def removeLines (blocks : List Block) (ls : List (List Char)) : List (List Char) :=
  (pySortDesc blocks).foldl (fun acc b => pyDelSlice b.start (b.endLine + 1) acc) ls

/-- `remove_deprecated_blocks(content, blocks)` (source lines 119-146). -/
def removeDeprecatedBlocks (content : List Char) (blocks : List Block) : List Char :=
  joinNl (removeLines blocks (splitNl content))

/-- Number of newlines emitted for a maximal run of `n` newlines by
`re.sub(r'\n{3,}', '\n\n', ...)`. -/
def emitNl (n : Nat) : List Char :=
  List.replicate (if 3 ≤ n then 2 else n) '\n'

/-- Run-collapsing core of `clean_empty_lines`: `n` is the number of
consecutive newline characters read so far and not yet emitted. -/
def cleanAux : List Char → Nat → List Char
  | [], n => emitNl n
  | c :: rest, n =>
    if c = '\n' then cleanAux rest (n + 1)
    else emitNl n ++ c :: cleanAux rest 0

/-- `clean_empty_lines(content)` (source lines 149-155): replace every
maximal run of three or more newline characters by exactly two. -/
def cleanEmptyLines (content : List Char) : List Char :=
  cleanAux content 0

/-- The whole pipeline as run by `main` (source lines 183-208): scan, and if
any block was found, remove and normalize; with no block found `main`
returns with the document untouched. -/
def transform (content : List Char) : List Char :=
  let bs := findDeprecatedMethods content
  if bs.isEmpty then content
  else cleanEmptyLines (removeDeprecatedBlocks content bs)

/-- Membership test of an index in a block list, used by the spec-side
forward pass. -/
def coveredBy (blocks : List Block) (i : Nat) : Bool :=
  blocks.any (fun b => b.start ≤ i && i ≤ b.endLine)

/-- Forward pass keeping the lines whose index is not covered, starting at
absolute index `i`. -/
def keepLines (blocks : List Block) : Nat → List (List Char) → List (List Char)
  | _, [] => []
  | i, l :: ls =>
    if coveredBy blocks i then keepLines blocks (i + 1) ls
    else l :: keepLines blocks (i + 1) ls

/-- Modelled from the spec's words for the recommended reimplementation
(§4.3 / §9): "build the output by copying only the lines not covered by any
planned range in a single forward pass". -/
def forwardPassSpec (blocks : List Block) (ls : List (List Char)) : List (List Char) :=
  keepLines blocks 0 ls

/-- Disjointness of two blocks' inclusive line ranges (spec §8). -/
def DisjointBlocks (a b : Block) : Prop :=
  a.endLine < b.start ∨ b.endLine < a.start

instance (a b : Block) : Decidable (DisjointBlocks a b) :=
  inferInstanceAs (Decidable (_ ∨ _))

/-- Ten-line document of the spec's §8 scenario: line 3 (1-based) is the
marker, line 4 is `func a() {`, line 5 is `  x = 1`, line 6 is `}`, the
other lines are unrelated. -/
def scenarioDoc : List Char :=
  "l1\nl2\n@available(*, deprecated)\nfunc a() \x7b\n  x = 1\n\x7d\nl7\nl8\nl9\nl10".toList

/-- Document whose marker (line 3, 1-based) is followed by a declaration
that never opens a brace on any later line. -/
def noBodyDoc : List Char :=
  "a\nb\n@available(*, deprecated)\nfunc f()\nplain\nplain2".toList

/-- Document whose only marker is followed by nothing but a blank line and a
pure comment line until end of document. -/
def taillessMarkerDoc : List Char :=
  "@available(*, deprecated)\n\n// c".toList

/-- A four-line document used to exercise the executor directly. -/
def fourLines : List (List Char) := [['a'], ['b'], ['c'], ['d']]

/-- Two overlapping blocks ([0,2] and [1,3] intersect on lines 1-2). -/
def overlappingBlocks : List Block := [⟨0, 2, ['m'], 3⟩, ⟨1, 3, ['n'], 3⟩]

/-- Proof-side invariant: every line carrying the deprecation marker is
followed only by blank or pure-comment lines.  A document whose line list is
benign yields no block when scanned. -/
def BenignLines (ls : List (List Char)) : Prop :=
  ∀ pre x post, ls = pre ++ x :: post → occursIn deprecatedMarker x = true →
    ∀ y ∈ post, blankOrComment y = true

/-! ## Lemmas about the blank-run normalizer -/

theorem cleanAux_cons_nl (rest : List Char) (n : Nat) :
    cleanAux ('\n' :: rest) n = cleanAux rest (n + 1) := by
  simp [cleanAux]

theorem cleanAux_cons_other {c : Char} (hc : c ≠ '\n') (rest : List Char) (n : Nat) :
    cleanAux (c :: rest) n = emitNl n ++ c :: cleanAux rest 0 := by
  simp [cleanAux, hc]

theorem cleanAux_replicate_append (z : List Char) :
    ∀ (m n : Nat), cleanAux (List.replicate m '\n' ++ z) n = cleanAux z (n + m) := by
  intro m
  induction m with
  | zero => intro n; simp
  | succ m ih =>
    intro n
    rw [List.replicate_succ, List.cons_append, cleanAux_cons_nl, ih]
    congr 1
    omega

theorem cleanAux_eq_emit_append (y : List Char) (hy : y.head? ≠ some '\n') (n : Nat) :
    cleanAux y n = emitNl n ++ cleanAux y 0 := by
  match y with
  | [] => simp [cleanAux, emitNl]
  | c :: rest =>
    have hc : c ≠ '\n' := by
      intro h; apply hy; simp [h]
    rw [cleanAux_cons_other hc, cleanAux_cons_other hc]
    simp [emitNl]

theorem cleanAux_append_of_ne_nil (z : List Char) :
    ∀ (x : List Char), x ≠ [] → x.getLast? ≠ some '\n' →
      ∀ n, cleanAux (x ++ z) n = cleanAux x n ++ cleanAux z 0 := by
  intro x
  induction x with
  | nil => intro h; exact absurd rfl h
  | cons c x' ih =>
    intro _ hlast n
    match hx : x' with
    | [] =>
      have hc : c ≠ '\n' := by
        intro h; apply hlast; simp [h]
      rw [List.cons_append, List.nil_append, cleanAux_cons_other hc,
        cleanAux_cons_other hc]
      simp [cleanAux, emitNl]
    | d :: x'' =>
      have hlast' : (d :: x'').getLast? ≠ some '\n' := by
        rwa [List.getLast?_cons_cons] at hlast
      by_cases hc : c = '\n'
      · subst hc
        rw [List.cons_append, cleanAux_cons_nl, cleanAux_cons_nl]
        exact ih (by simp) hlast' (n + 1)
      · rw [List.cons_append, cleanAux_cons_other hc, cleanAux_cons_other hc,
          ih (by simp) hlast' 0, List.append_assoc, List.cons_append]



theorem emit_count_le_two (n : Nat) : (if 3 ≤ n then 2 else n) ≤ 2 := by
  split <;> omega

theorem leadsWith_nl_head_false (p Z : List Char) (hne : Z.head? ≠ some '\n') :
    leadsWith ('\n' :: p) Z = false := by
  match Z with
  | [] => rfl
  | d :: Z' =>
    have hd : d ≠ '\n' := fun h => hne (by simp [h])
    simp only [leadsWith, Bool.and_eq_false_iff, beq_eq_false_iff_ne, ne_eq]
    left
    exact fun h => hd h.symm

theorem occursIn_triple_cons {c : Char} (hc : c ≠ '\n') (Z : List Char)
    (hZ : occursIn ['\n', '\n', '\n'] Z = false) :
    occursIn ['\n', '\n', '\n'] (c :: Z) = false := by
  have hlw : leadsWith ['\n', '\n', '\n'] (c :: Z) = false := by
    apply leadsWith_nl_head_false
    simp [hc]
  simp [occursIn, hlw, hZ]

theorem occursIn_triple_prefix (k : Nat) (hk : k ≤ 2) (Z : List Char)
    (hne : Z.head? ≠ some '\n')
    (hZ : occursIn ['\n', '\n', '\n'] Z = false) :
    occursIn ['\n', '\n', '\n'] (List.replicate k '\n' ++ Z) = false := by
  have h1 : occursIn ['\n', '\n', '\n'] ('\n' :: Z) = false := by
    have hlw : leadsWith ['\n', '\n', '\n'] ('\n' :: Z) = false := by
      have := leadsWith_nl_head_false ['\n'] Z hne
      simp [leadsWith, this]
    simp [occursIn, hlw, hZ]
  have h2 : occursIn ['\n', '\n', '\n'] ('\n' :: '\n' :: Z) = false := by
    have hlw : leadsWith ['\n', '\n', '\n'] ('\n' :: '\n' :: Z) = false := by
      have := leadsWith_nl_head_false [] Z hne
      simp [leadsWith, this]
    simp [occursIn, hlw]
    simp [occursIn] at h1
    exact h1
  interval_cases k
  · simpa using hZ
  · simpa using h1
  · simpa using h2

theorem cleanAux_head_eq (cs : List Char) : ∀ n, 1 ≤ n →
    (cleanAux cs n).head? = some '\n' := by
  induction cs with
  | nil =>
    intro n hn
    have : (if 3 ≤ n then 2 else n) ≥ 1 := by split <;> omega
    unfold cleanAux emitNl
    match hv : (if 3 ≤ n then 2 else n), this with
    | Nat.succ m, _ => simp [List.replicate_succ]
  | cons c rest ih =>
    intro n hn
    by_cases hc : c = '\n'
    · subst hc
      rw [cleanAux_cons_nl]
      exact ih (n + 1) (by omega)
    · rw [cleanAux_cons_other hc]
      have : (if 3 ≤ n then 2 else n) ≥ 1 := by split <;> omega
      unfold emitNl
      match hv : (if 3 ≤ n then 2 else n), this with
      | Nat.succ m, _ => simp [List.replicate_succ]

theorem cleanAux_head_ne_nl (cs : List Char) (hcs : cs.head? ≠ some '\n') :
    (cleanAux cs 0).head? = cs.head? := by
  match cs with
  | [] => rfl
  | c :: rest =>
    have hc : c ≠ '\n' := fun h => hcs (by simp [h])
    rw [cleanAux_cons_other hc]
    simp [emitNl]

theorem noTriple_cleanAux : ∀ (cs : List Char) (n : Nat),
    occursIn ['\n', '\n', '\n'] (cleanAux cs n) = false := by
  intro cs
  induction cs with
  | nil =>
    intro n
    unfold cleanAux emitNl
    have h2 : (if 3 ≤ n then 2 else n) ≤ 2 := by split <;> omega
    interval_cases h : (if 3 ≤ n then 2 else n) <;> decide
  | cons c rest ih =>
    intro n
    by_cases hc : c = '\n'
    · subst hc
      rw [cleanAux_cons_nl]
      exact ih (n + 1)
    · rw [cleanAux_cons_other hc]
      unfold emitNl
      apply occursIn_triple_prefix _ (by split <;> omega)
      · simp [hc]
      · exact occursIn_triple_cons hc _ (ih 0)


/-! ## Invariants of the annotation scanner -/

theorem seekDeclAux_ge : ∀ (suffix : List (List Char)) (j : Nat), j ≤ seekDeclAux suffix j := by
  intro suffix
  induction suffix with
  | nil => intro j; simp [seekDeclAux]
  | cons l rest ih =>
    intro j
    unfold seekDeclAux
    split
    · exact Nat.le_trans (Nat.le_succ j) (ih (j + 1))
    · exact Nat.le_refl j

theorem seekDeclAux_all_bc : ∀ (suffix : List (List Char)) (j : Nat),
    (∀ l ∈ suffix, blankOrComment l = true) →
    seekDeclAux suffix j = j + suffix.length := by
  intro suffix
  induction suffix with
  | nil => intro j _; simp [seekDeclAux]
  | cons l rest ih =>
    intro j hall
    unfold seekDeclAux
    rw [if_pos (hall l (by simp))]
    rw [ih (j + 1) (fun x hx => hall x (by simp [hx]))]
    simp
    omega

theorem findEndAux_ge : ∀ (suffix : List (List Char)) (k : Nat) (count : Int)
    (found : Bool) (d : Nat), d ≤ k → d ≤ findEndAux suffix k count found d := by
  intro suffix
  induction suffix with
  | nil => intro k count found d _; simp [findEndAux]
  | cons l rest ih =>
    intro k count found d hdk
    rcases hsc : scanChars l count found with ⟨c, f, stopped⟩
    rw [findEndAux, hsc]
    cases stopped
    · dsimp only
      split
      · exact Nat.le_refl d
      · exact ih (k + 1) c f d (Nat.le_trans hdk (Nat.le_succ k))
    · exact hdk

theorem findEndAux_lt : ∀ (suffix : List (List Char)) (k : Nat) (count : Int)
    (found : Bool) (d K : Nat), d < K → k + suffix.length ≤ K →
    findEndAux suffix k count found d < K := by
  intro suffix
  induction suffix with
  | nil => intro k count found d K hd _; simpa [findEndAux] using hd
  | cons l rest ih =>
    intro k count found d K hd hk
    rcases hsc : scanChars l count found with ⟨c, f, stopped⟩
    rw [findEndAux, hsc]
    cases stopped
    · dsimp only
      split
      · exact hd
      · exact ih (k + 1) c f d K hd (by simp only [List.length_cons] at hk; omega)
    · dsimp only
      simp only [List.length_cons] at hk
      omega

theorem fa_mem (ls : List (List Char)) :
    ∀ (fuel i : Nat), ∀ b ∈ findFromAux ls fuel i,
      i ≤ b.start ∧ b.start < b.endLine ∧ b.endLine < ls.length ∧
        b.lineCount = b.endLine + 1 - b.start := by
  intro fuel
  induction fuel with
  | zero => intro i b hb; simp [findFromAux] at hb
  | succ fuel ih =>
    intro i b hb
    rw [findFromAux] at hb
    cases hdrop : ls.drop i with
    | nil => rw [hdrop] at hb; simp at hb
    | cons line rest =>
      rw [hdrop] at hb
      dsimp only at hb
      have hi : i < ls.length := by
        by_contra h
        push_neg at h
        rw [List.drop_eq_nil_of_le h] at hdrop
        cases hdrop
      by_cases hmark : occursIn deprecatedMarker line
      · rw [if_pos hmark] at hb
        cases hdropj : ls.drop (seekDeclAux (ls.drop (i + 1)) (i + 1)) with
        | nil =>
          rw [hdropj] at hb
          dsimp only at hb
          have := ih (i + 1) b hb
          omega
        | cons sigLine rest2 =>
          rw [hdropj] at hb
          dsimp only at hb
          set j := seekDeclAux (ls.drop (i + 1)) (i + 1) with hjdef
          set e := findEndAux (sigLine :: rest2) j 0 false j with hedef
          have hj1 : i + 1 ≤ j := seekDeclAux_ge _ _
          have hjlt : j < ls.length := by
            by_contra h
            push_neg at h
            rw [List.drop_eq_nil_of_le h] at hdropj
            cases hdropj
          have hlen2 : (sigLine :: rest2).length = ls.length - j := by
            rw [← hdropj, List.length_drop]
          have hee : j ≤ e := findEndAux_ge _ _ _ _ _ (Nat.le_refl j)
          have helt : e < ls.length := by
            apply findEndAux_lt _ _ _ _ _ _ hjlt
            omega
          simp only [List.mem_cons] at hb
          rcases hb with rfl | hb
          · exact ⟨Nat.le_refl _, by dsimp only; omega, by dsimp only; omega,
              by dsimp only; omega⟩
          · have := ih (e + 1) b hb
            omega
      · rw [if_neg hmark] at hb
        have := ih (i + 1) b hb
        omega

theorem fa_pairwise (ls : List (List Char)) :
    ∀ (fuel i : Nat),
      List.Pairwise (fun a b => a.endLine < b.start) (findFromAux ls fuel i) := by
  intro fuel
  induction fuel with
  | zero => intro i; simp [findFromAux]
  | succ fuel ih =>
    intro i
    rw [findFromAux]
    cases hdrop : ls.drop i with
    | nil => simp
    | cons line rest =>
      dsimp only
      by_cases hmark : occursIn deprecatedMarker line
      · rw [if_pos hmark]
        cases hdropj : ls.drop (seekDeclAux (ls.drop (i + 1)) (i + 1)) with
        | nil => exact ih (i + 1)
        | cons sigLine rest2 =>
          dsimp only
          set j := seekDeclAux (ls.drop (i + 1)) (i + 1) with hjdef
          set e := findEndAux (sigLine :: rest2) j 0 false j with hedef
          refine List.Pairwise.cons ?_ (ih (e + 1))
          intro b hb
          have := fa_mem ls fuel (e + 1) b hb
          dsimp only
          omega
      · rw [if_neg hmark]
        exact ih (i + 1)


theorem fa_no_block_at (ls : List (List Char)) (m : Nat)
    (hbc : ∀ k, k < ls.length → m < k → blankOrComment (ls.getD k []) = true) :
    ∀ (fuel i : Nat), ∀ b ∈ findFromAux ls fuel i, b.start ≠ m := by
  intro fuel
  induction fuel with
  | zero => intro i b hb; simp [findFromAux] at hb
  | succ fuel ih =>
    intro i b hb
    rw [findFromAux] at hb
    cases hdrop : ls.drop i with
    | nil => rw [hdrop] at hb; simp at hb
    | cons line rest =>
      rw [hdrop] at hb
      dsimp only at hb
      have hi : i < ls.length := by
        by_contra h
        push_neg at h
        rw [List.drop_eq_nil_of_le h] at hdrop
        cases hdrop
      by_cases hmark : occursIn deprecatedMarker line
      · rw [if_pos hmark] at hb
        cases hdropj : ls.drop (seekDeclAux (ls.drop (i + 1)) (i + 1)) with
        | nil =>
          rw [hdropj] at hb
          dsimp only at hb
          exact ih (i + 1) b hb
        | cons sigLine rest2 =>
          rw [hdropj] at hb
          dsimp only at hb
          set j := seekDeclAux (ls.drop (i + 1)) (i + 1) with hjdef
          set e := findEndAux (sigLine :: rest2) j 0 false j with hedef
          simp only [List.mem_cons] at hb
          rcases hb with rfl | hb
          · -- the head block starts at i; show i ≠ m
            dsimp only
            intro him
            subst him
            -- all lines after i are blank-or-comment, so j = ls.length
            have hall : ∀ l ∈ ls.drop (i + 1), blankOrComment l = true := by
              intro l hl
              rw [List.mem_drop_iff_getElem] at hl
              obtain ⟨r, hr, hget⟩ := hl
              have hk : blankOrComment (ls.getD (i + 1 + r) []) = true :=
                hbc (i + 1 + r) (by omega) (by omega)
              rwa [List.getD_eq_getElem ls [] (by omega), hget] at hk
            have hjlen : j = ls.length := by
              rw [hjdef, seekDeclAux_all_bc _ _ hall, List.length_drop]
              omega
            rw [hjlen, List.drop_length] at hdropj
            cases hdropj
          · exact ih (e + 1) b hb
      · rw [if_neg hmark] at hb
        exact ih (i + 1) b hb

/-! ## Lemmas about the removal executor -/

theorem coveredBy_false_of (bl : List Block) (i : Nat)
    (h : ∀ b ∈ bl, b.endLine < i ∨ i < b.start) : coveredBy bl i = false := by
  cases hc : coveredBy bl i
  · rfl
  · exfalso
    simp only [coveredBy, List.any_eq_true, Bool.and_eq_true, decide_eq_true_eq] at hc
    obtain ⟨b, hb, h1, h2⟩ := hc
    rcases h b hb with h3 | h3 <;> omega

theorem coveredBy_true_of (bl : List Block) (i : Nat) {b : Block} (hb : b ∈ bl)
    (h1 : b.start ≤ i) (h2 : i ≤ b.endLine) : coveredBy bl i = true := by
  simp only [coveredBy, List.any_eq_true, Bool.and_eq_true, decide_eq_true_eq]
  exact ⟨b, hb, h1, h2⟩

theorem keepLines_of_none (bl : List Block) :
    ∀ (ls : List (List Char)) (i : Nat), (∀ b ∈ bl, b.endLine < i) →
      keepLines bl i ls = ls := by
  intro ls
  induction ls with
  | nil => intro i _; rfl
  | cons x xs ih =>
    intro i h
    simp only [keepLines]
    rw [if_neg (by rw [coveredBy_false_of bl i (fun b hb => Or.inl (h b hb))]; simp)]
    rw [ih (i + 1) (fun b hb => Nat.lt_trans (h b hb) (Nat.lt_succ_self i))]

theorem keepLines_append (bl : List Block) :
    ∀ (xs ys : List (List Char)) (i : Nat),
      keepLines bl i (xs ++ ys) = keepLines bl i xs ++ keepLines bl (i + xs.length) ys := by
  intro xs
  induction xs with
  | nil => intro ys i; simp [keepLines]
  | cons x xs ih =>
    intro ys i
    simp only [List.cons_append, keepLines, List.append_eq]
    have harith : i + 1 + xs.length = i + (x :: xs).length := by
      simp only [List.length_cons]
      omega
    by_cases h : coveredBy bl i = true
    · rw [if_pos h, if_pos h, ih, harith]
    · rw [if_neg h, if_neg h, ih, harith, List.cons_append]

theorem keepLines_all_covered (bl : List Block) {b : Block} (hb : b ∈ bl) :
    ∀ (ls : List (List Char)) (i : Nat), b.start ≤ i → i + ls.length ≤ b.endLine + 1 →
      keepLines bl i ls = [] := by
  intro ls
  induction ls with
  | nil => intro i _ _; rfl
  | cons x xs ih =>
    intro i h1 h2
    simp only [List.length_cons] at h2
    simp only [keepLines]
    rw [if_pos (coveredBy_true_of bl i hb h1 (by omega))]
    exact ih (i + 1) (by omega) (by omega)

theorem keepLines_uncovered_head (b : Block) (bl : List Block) :
    ∀ (ls : List (List Char)) (i : Nat), i + ls.length ≤ b.start →
      keepLines (b :: bl) i ls = keepLines bl i ls := by
  intro ls
  induction ls with
  | nil => intro i _; rfl
  | cons x xs ih =>
    intro i h
    simp only [List.length_cons] at h
    have hcov : coveredBy (b :: bl) i = coveredBy bl i := by
      simp only [coveredBy, List.any_cons]
      have : (b.start ≤ i && i ≤ b.endLine) = false := by
        simp only [Bool.and_eq_false_iff, decide_eq_false_iff_not]
        left
        omega
      rw [this, Bool.false_or]
    simp only [keepLines, hcov]
    rw [ih (i + 1) (by omega)]

theorem keepLines_sublist (bl : List Block) :
    ∀ (ls : List (List Char)) (i : Nat), List.Sublist (keepLines bl i ls) ls := by
  intro ls
  induction ls with
  | nil => intro i; simp [keepLines]
  | cons x xs ih =>
    intro i
    simp only [keepLines]
    by_cases h : coveredBy bl i = true
    · rw [if_pos h]
      exact (ih (i + 1)).cons x
    · rw [if_neg h]
      exact (ih (i + 1)).cons₂ x

theorem keepLines_congr {bl bl2 : List Block} (h : ∀ j, coveredBy bl j = coveredBy bl2 j) :
    ∀ (ls : List (List Char)) (i : Nat), keepLines bl i ls = keepLines bl2 i ls := by
  intro ls
  induction ls with
  | nil => intro i; rfl
  | cons x xs ih =>
    intro i
    simp only [keepLines, h i]
    by_cases hc : coveredBy bl2 i = true
    · rw [if_pos hc, if_pos hc, ih]
    · rw [if_neg hc, if_neg hc, ih]

theorem coveredBy_perm {bl bl2 : List Block} (hp : bl.Perm bl2) (i : Nat) :
    coveredBy bl i = coveredBy bl2 i := by
  have htr : ∀ (u v : List Block), u.Perm v → coveredBy u i = true → coveredBy v i = true := by
    intro u v huv hc
    simp only [coveredBy, List.any_eq_true] at hc ⊢
    obtain ⟨b, hb, hbp⟩ := hc
    exact ⟨b, huv.mem_iff.mp hb, hbp⟩
  cases h1 : coveredBy bl i <;> cases h2 : coveredBy bl2 i
  · rfl
  · rw [← h1, htr bl2 bl hp.symm h2]
  · rw [← h2, htr bl bl2 hp h1]
  · rfl

theorem foldl_del_eq_keep : ∀ (bl : List Block) (ls : List (List Char)),
    List.Pairwise (fun a b => b.endLine < a.start) bl →
    (∀ b ∈ bl, b.start ≤ b.endLine) →
    bl.foldl (fun acc b => pyDelSlice b.start (b.endLine + 1) acc) ls = keepLines bl 0 ls := by
  intro bl
  induction bl with
  | nil =>
    intro ls _ _
    simp only [List.foldl_nil]
    rw [keepLines_of_none [] ls 0 (by simp)]
  | cons b bs ih =>
    intro ls hpw hse
    have hs : b.start ≤ b.endLine := hse b (by simp)
    have htail : ∀ x ∈ bs, x.endLine < b.start := (List.pairwise_cons.mp hpw).1
    have hpw2 : List.Pairwise (fun a b => b.endLine < a.start) bs := (List.pairwise_cons.mp hpw).2
    have hse2 : ∀ x ∈ bs, x.start ≤ x.endLine := fun x hx => hse x (by simp [hx])
    simp only [List.foldl_cons]
    have hdel : pyDelSlice b.start (b.endLine + 1) ls =
        ls.take b.start ++ ls.drop (b.endLine + 1) := by
      unfold pyDelSlice
      rw [Nat.max_eq_right (by omega)]
    rw [hdel, ih _ hpw2 hse2]
    by_cases hb : b.start ≤ ls.length
    · have hlt : (ls.take b.start).length = b.start := by
        simp only [List.length_take]
        omega
      rw [keepLines_append, hlt, Nat.zero_add,
        keepLines_of_none bs _ b.start htail]
      have hR : keepLines (b :: bs) 0 ls =
          keepLines bs 0 (ls.take b.start) ++ ls.drop (b.endLine + 1) := by
        conv_lhs => rw [← List.take_append_drop (b.endLine + 1) ls]
        rw [keepLines_append]
        have hpart2 : keepLines (b :: bs) (0 + (ls.take (b.endLine + 1)).length)
            (ls.drop (b.endLine + 1)) = ls.drop (b.endLine + 1) := by
          by_cases he : b.endLine + 1 ≤ ls.length
          · have hl2 : (ls.take (b.endLine + 1)).length = b.endLine + 1 := by
              simp only [List.length_take]
              omega
            rw [hl2]
            apply keepLines_of_none
            intro x hx
            simp only [List.mem_cons] at hx
            rcases hx with rfl | hx
            · omega
            · have := htail x hx
              omega
          · rw [List.drop_eq_nil_of_le (by omega)]
            rfl
        rw [hpart2]
        congr 1
        conv_lhs => rw [← List.take_append_drop b.start (ls.take (b.endLine + 1))]
        rw [keepLines_append, List.take_take,
          Nat.min_eq_left (by omega : b.start ≤ b.endLine + 1), hlt, Nat.zero_add]
        have hmid : keepLines (b :: bs) b.start
            (List.drop b.start (ls.take (b.endLine + 1))) = [] := by
          apply keepLines_all_covered (b :: bs) (List.mem_cons_self b bs) _ _ (Nat.le_refl _)
          simp only [List.length_drop, List.length_take]
          omega
        rw [hmid, List.append_nil]
        exact keepLines_uncovered_head b bs _ 0 (by rw [hlt]; omega)
      rw [hR]
    · push_neg at hb
      rw [List.take_of_length_le (by omega), List.drop_eq_nil_of_le (by omega),
        List.append_nil]
      rw [keepLines_uncovered_head b bs ls 0 (by omega)]

theorem pySortDesc_perm (blocks : List Block) : (pySortDesc blocks).Perm blocks :=
  List.perm_insertionSort blockGE blocks

theorem pySortDesc_desc (blocks : List Block)
    (h1 : ∀ b ∈ blocks, b.start ≤ b.endLine)
    (h2 : List.Pairwise DisjointBlocks blocks) :
    List.Pairwise (fun a b => b.endLine < a.start) (pySortDesc blocks) := by
  have hperm := pySortDesc_perm blocks
  have hsorted : List.Pairwise blockGE (pySortDesc blocks) :=
    List.sorted_insertionSort blockGE blocks
  have hd : List.Pairwise DisjointBlocks (pySortDesc blocks) :=
    (List.Perm.pairwise_iff (fun hxy => hxy.symm) hperm).mpr h2
  have h1s : ∀ b ∈ pySortDesc blocks, b.start ≤ b.endLine :=
    fun b hb => h1 b (hperm.mem_iff.mp hb)
  refine (hsorted.and hd).imp_of_mem ?_
  intro a c ha hc hrel
  obtain ⟨hge, hdis⟩ := hrel
  rcases hdis with h | h
  · exfalso
    have := h1s a ha
    unfold blockGE at hge
    omega
  · exact h

theorem removeLines_eq_forward (blocks : List Block) (ls : List (List Char))
    (h1 : ∀ b ∈ blocks, b.start ≤ b.endLine)
    (h2 : List.Pairwise DisjointBlocks blocks) :
    removeLines blocks ls = forwardPassSpec blocks ls := by
  unfold removeLines forwardPassSpec
  have hperm := pySortDesc_perm blocks
  have h1s : ∀ b ∈ pySortDesc blocks, b.start ≤ b.endLine :=
    fun b hb => h1 b (hperm.mem_iff.mp hb)
  rw [foldl_del_eq_keep _ _ (pySortDesc_desc blocks h1 h2) h1s]
  exact keepLines_congr (fun j => coveredBy_perm hperm j) ls 0

theorem foldl_del_length : ∀ (bl : List Block) (ls : List (List Char)),
    List.Pairwise (fun a b => b.endLine < a.start) bl →
    (∀ b ∈ bl, b.start ≤ b.endLine ∧ b.endLine < ls.length) →
    (bl.foldl (fun acc b => pyDelSlice b.start (b.endLine + 1) acc) ls).length
      + (bl.map (fun b => b.endLine + 1 - b.start)).sum = ls.length := by
  intro bl
  induction bl with
  | nil => intro ls _ _; simp
  | cons b bs ih =>
    intro ls hpw hb
    have hs : b.start ≤ b.endLine ∧ b.endLine < ls.length := hb b (by simp)
    have htail : ∀ x ∈ bs, x.endLine < b.start := (List.pairwise_cons.mp hpw).1
    have hpw2 := (List.pairwise_cons.mp hpw).2
    simp only [List.foldl_cons]
    have hdel : pyDelSlice b.start (b.endLine + 1) ls =
        ls.take b.start ++ ls.drop (b.endLine + 1) := by
      unfold pyDelSlice
      rw [Nat.max_eq_right (by omega)]
    have hdlen : (ls.take b.start ++ ls.drop (b.endLine + 1)).length =
        ls.length - (b.endLine + 1 - b.start) := by
      simp only [List.length_append, List.length_take, List.length_drop]
      omega
    have hb2 : ∀ x ∈ bs, x.start ≤ x.endLine ∧
        x.endLine < (ls.take b.start ++ ls.drop (b.endLine + 1)).length := by
      intro x hx
      have h3 := hb x (by simp [hx])
      have h4 := htail x hx
      rw [hdlen]
      omega
    rw [hdel]
    have := ih (ls.take b.start ++ ls.drop (b.endLine + 1)) hpw2 hb2
    rw [hdlen] at this
    simp only [List.map_cons, List.sum_cons]
    omega

/-! ## Line-splitting, normalizer-sublist and benign-document lemmas -/

theorem splitNl_ne_nil : ∀ cs : List Char, splitNl cs ≠ [] := by
  intro cs
  match cs with
  | [] => simp [splitNl]
  | c :: rest =>
    by_cases hc : c = '\n'
    · simp [splitNl, hc]
    · simp only [splitNl, if_neg hc]
      cases h : splitNl rest <;> simp

theorem splitNl_cons_ne {c : Char} (hc : c ≠ '\n') (X : List Char) {H : List Char}
    {T : List (List Char)} (hX : splitNl X = H :: T) :
    splitNl (c :: X) = (c :: H) :: T := by
  simp only [splitNl, if_neg hc, hX]

theorem splitNl_cons_nl (X : List Char) : splitNl ('\n' :: X) = [] :: splitNl X := by
  simp [splitNl]

theorem splitNl_replicate (z : List Char) :
    ∀ k, splitNl (List.replicate k '\n' ++ z) = List.replicate k [] ++ splitNl z := by
  intro k
  induction k with
  | zero => simp
  | succ k ih =>
    rw [List.replicate_succ, List.cons_append, splitNl_cons_nl, ih, List.replicate_succ,
      List.cons_append]

theorem splitNl_no_nl : ∀ (cs : List Char) (l : List Char), l ∈ splitNl cs → '\n' ∉ l := by
  intro cs
  induction cs with
  | nil =>
    intro l hl
    simp [splitNl] at hl
    simp [hl]
  | cons c rest ih =>
    intro l hl
    by_cases hc : c = '\n'
    · subst hc
      rw [splitNl_cons_nl] at hl
      rcases List.mem_cons.mp hl with rfl | hl
      · simp
      · exact ih l hl
    · cases hX : splitNl rest with
      | nil => exact absurd hX (splitNl_ne_nil rest)
      | cons H T =>
        rw [splitNl_cons_ne hc rest hX] at hl
        rcases List.mem_cons.mp hl with rfl | hl
        · intro hmem
          rcases List.mem_cons.mp hmem with h | h
          · exact hc h.symm
          · exact ih H (by rw [hX]; exact List.mem_cons_self H T) h
        · exact ih l (by rw [hX]; exact List.mem_cons_of_mem H hl)

theorem joinNl_splitNl : ∀ cs : List Char, joinNl (splitNl cs) = cs := by
  intro cs
  induction cs with
  | nil => rfl
  | cons c rest ih =>
    by_cases hc : c = '\n'
    · subst hc
      rw [splitNl_cons_nl]
      cases hX : splitNl rest with
      | nil => exact absurd hX (splitNl_ne_nil rest)
      | cons H T =>
        rw [← hX]
        show joinNl ([] :: splitNl rest) = '\n' :: rest
        rw [hX]
        show [] ++ '\n' :: joinNl (H :: T) = '\n' :: rest
        rw [List.nil_append, ← hX, ih]
    · cases hX : splitNl rest with
      | nil => exact absurd hX (splitNl_ne_nil rest)
      | cons H T =>
        rw [splitNl_cons_ne hc rest hX]
        cases T with
        | nil =>
          show c :: H = c :: rest
          have : joinNl (H :: ([] : List (List Char))) = rest := by rw [← hX]; exact ih
          simp only [joinNl] at this
          rw [this]
        | cons T0 Ts =>
          show (c :: H) ++ '\n' :: joinNl (T0 :: Ts) = c :: rest
          have : H ++ '\n' :: joinNl (T0 :: Ts) = rest := by
            have h2 : joinNl (H :: T0 :: Ts) = rest := by rw [← hX]; exact ih
            simpa only [joinNl] using h2
          rw [List.cons_append, this]

theorem splitNl_nl_free : ∀ (l : List Char), '\n' ∉ l → splitNl l = [l] := by
  intro l
  induction l with
  | nil => intro _; rfl
  | cons c cr ih =>
    intro h
    have hc : c ≠ '\n' := fun hh => h (by simp [hh])
    have hcr := ih (fun hh => h (by simp [hh]))
    exact splitNl_cons_ne hc cr hcr

theorem splitNl_line_append : ∀ (l : List Char), '\n' ∉ l → ∀ (z : List Char),
    splitNl (l ++ '\n' :: z) = l :: splitNl z := by
  intro l
  induction l with
  | nil =>
    intro _ z
    rw [List.nil_append, splitNl_cons_nl]
  | cons c cr ih =>
    intro h z
    have hc : c ≠ '\n' := fun hh => h (by simp [hh])
    have hcr := ih (fun hh => h (by simp [hh])) z
    rw [List.cons_append]
    cases hX : splitNl (cr ++ '\n' :: z) with
    | nil => exact absurd hX (splitNl_ne_nil _)
    | cons H T =>
      rw [hX] at hcr
      rcases List.cons_eq_cons.mp hcr with ⟨rfl, rfl⟩
      exact splitNl_cons_ne hc _ hX

theorem splitNl_joinNl : ∀ ls : List (List Char), ls ≠ [] → (∀ l ∈ ls, '\n' ∉ l) →
    splitNl (joinNl ls) = ls := by
  intro ls
  induction ls with
  | nil => intro h; exact absurd rfl h
  | cons l ls' ih =>
    intro _ hnl
    cases ls' with
    | nil => exact splitNl_nl_free l (hnl l (by simp))
    | cons l2 ls'' =>
      have hstep : joinNl (l :: l2 :: ls'') = l ++ '\n' :: joinNl (l2 :: ls'') := rfl
      rw [hstep, splitNl_line_append l (hnl l (by simp)),
        ih (by simp) (fun x hx => hnl x (List.mem_cons_of_mem l hx))]

theorem splitNl_cleanAux_decomp : ∀ (r : List Char) (n : Nat),
    ∃ (m : Nat) (h : List Char) (w' w : List (List Char)),
      splitNl (cleanAux r n) =
        List.replicate (if 3 ≤ n + m then 2 else n + m) [] ++ (h :: w') ∧
      splitNl r = List.replicate m [] ++ (h :: w) ∧
      List.Sublist w' w := by
  intro r
  induction r with
  | nil =>
    intro n
    refine ⟨0, [], [], [], ?_, by rfl, List.Sublist.refl []⟩
    show splitNl (emitNl n) = _
    unfold emitNl
    have : List.replicate (if 3 ≤ n then 2 else n) '\n' =
        List.replicate (if 3 ≤ n then 2 else n) '\n' ++ [] := by simp
    rw [this, splitNl_replicate]
    simp only [Nat.add_zero]
    rfl
  | cons c r ih =>
    intro n
    by_cases hc : c = '\n'
    · subst hc
      obtain ⟨m', h, w', w, H1, H2, H3⟩ := ih (n + 1)
      refine ⟨m' + 1, h, w', w, ?_, ?_, H3⟩
      · rw [cleanAux_cons_nl]
        have harg : n + (m' + 1) = n + 1 + m' := by omega
        rw [harg]
        exact H1
      · rw [splitNl_cons_nl, H2, List.replicate_succ, List.cons_append]
    · obtain ⟨m2, h2, w2', w2, H1, H2, H3⟩ := ih 0
      simp only [Nat.zero_add] at H1
      cases m2 with
      | zero =>
        simp only [List.replicate, List.nil_append] at H1 H2
        refine ⟨0, c :: h2, w2', w2, ?_, ?_, H3⟩
        · rw [cleanAux_cons_other hc]
          unfold emitNl
          rw [show List.replicate (if 3 ≤ n then 2 else n) '\n' ++ c :: cleanAux r 0 =
            List.replicate (if 3 ≤ n then 2 else n) '\n' ++ (c :: cleanAux r 0) from rfl,
            splitNl_replicate, splitNl_cons_ne hc _ H1]
          simp
        · rw [splitNl_cons_ne hc _ H2]
          simp
      | succ m3 =>
        set k := if 3 ≤ m3 + 1 then 2 else m3 + 1 with hk
        have hk1 : 1 ≤ k := by rw [hk]; split <;> omega
        have hkm : k ≤ m3 + 1 := by rw [hk]; split <;> omega
        obtain ⟨k', hk'⟩ : ∃ k', k = k' + 1 := ⟨k - 1, by omega⟩
        have H1' : splitNl (cleanAux r 0) = [] :: (List.replicate k' [] ++ h2 :: w2') := by
          rw [H1, hk', List.replicate_succ, List.cons_append]
        have H2' : splitNl r = [] :: (List.replicate m3 [] ++ h2 :: w2) := by
          rw [H2, List.replicate_succ, List.cons_append]
        refine ⟨0, [c], List.replicate k' [] ++ h2 :: w2',
          List.replicate m3 [] ++ h2 :: w2, ?_, ?_, ?_⟩
        · rw [cleanAux_cons_other hc]
          unfold emitNl
          rw [show List.replicate (if 3 ≤ n then 2 else n) '\n' ++ c :: cleanAux r 0 =
            List.replicate (if 3 ≤ n then 2 else n) '\n' ++ (c :: cleanAux r 0) from rfl,
            splitNl_replicate, splitNl_cons_ne hc _ H1']
          simp only [Nat.add_zero]
        · rw [splitNl_cons_ne hc _ H2']
          simp
        · exact List.Sublist.append
            ((List.replicate_sublist_replicate []).mpr (by omega)) (H3.cons₂ h2)

theorem splitNl_clean_sublist (cs : List Char) :
    List.Sublist (splitNl (cleanEmptyLines cs)) (splitNl cs) := by
  obtain ⟨m, h, w', w, H1, H2, H3⟩ := splitNl_cleanAux_decomp cs 0
  simp only [Nat.zero_add] at H1
  rw [show cleanEmptyLines cs = cleanAux cs 0 from rfl, H1, H2]
  exact List.Sublist.append
    ((List.replicate_sublist_replicate []).mpr (by split <;> omega)) (H3.cons₂ h)


theorem benign_cons {a : List Char} {l : List (List Char)}
    (h : BenignLines (a :: l)) : BenignLines l := by
  intro pre x post heq hx y hy
  exact h (a :: pre) x post (by rw [List.cons_append, heq]) hx y hy

theorem benign_sublist : ∀ {l' l : List (List Char)}, List.Sublist l' l →
    BenignLines l → BenignLines l' := by
  intro l' l hsub
  induction hsub with
  | slnil => exact fun h => h
  | cons a _ ih => exact fun h => ih (benign_cons h)
  | @cons₂ l1 l2 a hsub ih =>
    intro h pre x post heq hx y hy
    cases pre with
    | nil =>
      rw [List.nil_append] at heq
      have hxa : a = x := (List.cons_eq_cons.mp heq).1
      have hpost : l1 = post := (List.cons_eq_cons.mp heq).2
      have hall : ∀ z ∈ l2, blankOrComment z = true :=
        h [] x l2 (by simp [hxa]) hx
      rw [← hpost] at hy
      exact hall y (hsub.subset hy)
    | cons p pre' =>
      have hl1 : l1 = pre' ++ x :: post := (List.cons_eq_cons.mp heq).2
      exact ih (benign_cons h) pre' x post hl1 hx y hy

theorem seekDeclAux_le : ∀ (suffix : List (List Char)) (j : Nat),
    seekDeclAux suffix j ≤ j + suffix.length := by
  intro suffix
  induction suffix with
  | nil => intro j; simp [seekDeclAux]
  | cons l rest ih =>
    intro j
    unfold seekDeclAux
    split
    · have := ih (j + 1)
      simp only [List.length_cons]
      omega
    · simp only [List.length_cons]
      omega

theorem seekDeclAux_bc_before : ∀ (suffix : List (List Char)) (j k : Nat),
    j ≤ k → k < seekDeclAux suffix j →
    blankOrComment (suffix.getD (k - j) []) = true := by
  intro suffix
  induction suffix with
  | nil =>
    intro j k hjk hk
    simp [seekDeclAux] at hk
    omega
  | cons l rest ih =>
    intro j k hjk hk
    unfold seekDeclAux at hk
    by_cases hbc : blankOrComment l = true
    · rw [if_pos hbc] at hk
      rcases Nat.eq_or_lt_of_le hjk with rfl | hlt
      · simpa using hbc
      · have := ih (j + 1) k hlt hk
        have harg : k - j = (k - (j + 1)) + 1 := by omega
        rw [harg]
        simpa using this
    · rw [if_neg hbc] at hk
      omega

theorem benign_find_nil (ls : List (List Char)) (hB : BenignLines ls) :
    ∀ (fuel i : Nat), findFromAux ls fuel i = [] := by
  intro fuel
  induction fuel with
  | zero => intro i; rfl
  | succ fuel ih =>
    intro i
    rw [findFromAux]
    cases hdrop : ls.drop i with
    | nil => rfl
    | cons line rest =>
      dsimp only
      have hilen : i < ls.length := by
        by_contra h
        push_neg at h
        rw [List.drop_eq_nil_of_le h] at hdrop
        cases hdrop
      by_cases hmark : occursIn deprecatedMarker line
      · rw [if_pos hmark]
        have hdecomp : ls = ls.take i ++ line :: rest := by
          conv_lhs => rw [← List.take_append_drop i ls]
          rw [hdrop]
        have hall : ∀ y ∈ rest, blankOrComment y = true :=
          hB (ls.take i) line rest hdecomp hmark
        have hdrop1 : ls.drop (i + 1) = rest := by
          rw [← List.drop_drop, hdrop]
          rfl
        have hlen : i + 1 + rest.length = ls.length := by
          have h2 : (ls.drop i).length = ls.length - i := List.length_drop i ls
          rw [hdrop] at h2
          simp only [List.length_cons] at h2
          omega
        have hseek : seekDeclAux (ls.drop (i + 1)) (i + 1) = ls.length := by
          rw [hdrop1, seekDeclAux_all_bc rest (i + 1) hall]
          omega
        rw [hseek, List.drop_length]
        exact ih (i + 1)
      · rw [if_neg hmark]
        exact ih (i + 1)

theorem fa_cover (ls : List (List Char)) :
    ∀ (fuel i m : Nat), ls.length ≤ fuel + i → i ≤ m → m < ls.length →
      occursIn deprecatedMarker (ls.getD m []) = true →
      (∃ b ∈ findFromAux ls fuel i, b.start ≤ m ∧ m ≤ b.endLine) ∨
      (∀ k, k < ls.length → m < k → blankOrComment (ls.getD k []) = true) := by
  intro fuel
  induction fuel with
  | zero =>
    intro i m hfuel him hm _
    omega
  | succ fuel ih =>
    intro i m hfuel him hm hmark
    rw [findFromAux]
    cases hdrop : ls.drop i with
    | nil =>
      exfalso
      rw [List.drop_eq_nil_iff] at hdrop
      omega
    | cons line rest =>
      dsimp only
      have hilen : i < ls.length := by
        by_contra h
        push_neg at h
        rw [List.drop_eq_nil_of_le h] at hdrop
        cases hdrop
      by_cases hml : occursIn deprecatedMarker line
      · rw [if_pos hml]
        cases hdropj : ls.drop (seekDeclAux (ls.drop (i + 1)) (i + 1)) with
        | nil =>
          -- the declaration search ran to end of document:
          -- every line strictly after i is blank-or-comment
          right
          have hjge : ls.length ≤ seekDeclAux (ls.drop (i + 1)) (i + 1) := by
            rw [← List.drop_eq_nil_iff, hdropj]
          intro k hk hmk
          have hik : i + 1 ≤ k := by omega
          have hbc := seekDeclAux_bc_before (ls.drop (i + 1)) (i + 1) k hik (by omega)
          have hgd : (ls.drop (i + 1)).getD (k - (i + 1)) [] = ls.getD k [] := by
            have hkd : k - (i + 1) < (ls.drop (i + 1)).length := by
              rw [List.length_drop]
              omega
            rw [List.getD_eq_getElem _ [] hkd, List.getD_eq_getElem ls [] hk,
              List.getElem_drop]
            congr 1
            omega
          rwa [hgd] at hbc
        | cons sigLine rest2 =>
          dsimp only
          set j := seekDeclAux (ls.drop (i + 1)) (i + 1) with hjdef
          set e := findEndAux (sigLine :: rest2) j 0 false j with hedef
          have hj1 : i + 1 ≤ j := seekDeclAux_ge _ _
          have hjlt : j < ls.length := by
            by_contra h
            push_neg at h
            rw [List.drop_eq_nil_of_le h] at hdropj
            cases hdropj
          have hee : j ≤ e := findEndAux_ge _ _ _ _ _ (Nat.le_refl j)
          by_cases hme : m ≤ e
          · left
            refine ⟨⟨i, e, extractName (pyStrip sigLine), e - i + 1⟩,
              List.mem_cons_self _ _, him, hme⟩
          · push_neg at hme
            have hrec := ih (e + 1) m (by omega) (by omega) hm hmark
            rcases hrec with ⟨b, hb, hb1, hb2⟩ | hall
            · exact Or.inl ⟨b, List.mem_cons_of_mem _ hb, hb1, hb2⟩
            · exact Or.inr hall
      · rw [if_neg hml]
        have him2 : i + 1 ≤ m := by
          rcases Nat.eq_or_lt_of_le him with rfl | h
          · exfalso
            apply hml
            have hl2 : ls[i]? = some line := by
              rw [← List.head?_drop, hdrop]
              rfl
            have hline : ls.getD i [] = line := by
              rw [List.getD_eq_getElem?_getD, hl2]
              rfl
            rwa [hline] at hmark
          · omega
        exact ih (i + 1) m (by omega) him2 hm hmark

theorem keepLines_decomp (bl : List Block) :
    ∀ (ls : List (List Char)) (i : Nat) (pre x post : _),
      keepLines bl i ls = pre ++ x :: post →
      ∃ n, n < ls.length ∧ ls.getD n [] = x ∧ coveredBy bl (i + n) = false ∧
        post = keepLines bl (i + n + 1) (ls.drop (n + 1)) := by
  intro ls
  induction ls with
  | nil =>
    intro i pre x post h
    rw [show keepLines bl i [] = [] from rfl] at h
    exact absurd h.symm (by simp)
  | cons l ls' ih =>
    intro i pre x post h
    simp only [keepLines] at h
    by_cases hc : coveredBy bl i = true
    · rw [if_pos hc] at h
      obtain ⟨n, hn, hget, hcov, hpost⟩ := ih (i + 1) pre x post h
      refine ⟨n + 1, by simpa using Nat.succ_lt_succ hn, by simpa using hget, ?_, ?_⟩
      · rw [show i + (n + 1) = i + 1 + n by omega]
        exact hcov
      · rw [show i + (n + 1) + 1 = i + 1 + n + 1 by omega, List.drop_succ_cons]
        exact hpost
    · rw [if_neg hc] at h
      cases pre with
      | nil =>
        rw [List.nil_append] at h
        obtain ⟨rfl, hpost⟩ := List.cons_eq_cons.mp h
        refine ⟨0, by simp, by simp, by simpa using hc, ?_⟩
        rw [Nat.add_zero, List.drop_succ_cons, List.drop_zero]
        exact hpost.symm
      | cons p pre' =>
        rw [List.cons_append] at h
        obtain ⟨rfl, hrest⟩ := List.cons_eq_cons.mp h
        obtain ⟨n, hn, hget, hcov, hpost⟩ := ih (i + 1) pre' x post hrest
        refine ⟨n + 1, by simpa using Nat.succ_lt_succ hn, by simpa using hget, ?_, ?_⟩
        · rw [show i + (n + 1) = i + 1 + n by omega]
          exact hcov
        · rw [show i + (n + 1) + 1 = i + 1 + n + 1 by omega, List.drop_succ_cons]
          exact hpost

theorem find_blocks_le (content : List Char) :
    ∀ b ∈ findDeprecatedMethods content, b.start ≤ b.endLine := by
  intro b hb
  have := fa_mem (splitNl content) ((splitNl content).length + 1) 0 b hb
  omega

theorem find_blocks_disjoint (content : List Char) :
    List.Pairwise DisjointBlocks (findDeprecatedMethods content) :=
  (fa_pairwise (splitNl content) ((splitNl content).length + 1) 0).imp (fun h => Or.inl h)

theorem mem_drop_exists_getD (ls : List (List Char)) (t : Nat) (y : List Char)
    (hy : y ∈ ls.drop t) : ∃ k, t ≤ k ∧ k < ls.length ∧ ls.getD k [] = y := by
  rw [List.mem_drop_iff_getElem] at hy
  obtain ⟨i, hm, hget⟩ := hy
  refine ⟨t + i, by omega, by omega, ?_⟩
  rw [List.getD_eq_getElem ls [] (by omega)]
  exact hget

theorem benign_kept (content : List Char) :
    BenignLines (keepLines (findDeprecatedMethods content) 0 (splitNl content)) := by
  intro pre x post heq hx y hy
  obtain ⟨n, hn, hget, hcov, hpost⟩ :=
    keepLines_decomp (findDeprecatedMethods content) (splitNl content) 0 pre x post heq
  simp only [Nat.zero_add] at hcov hpost
  have hmark : occursIn deprecatedMarker ((splitNl content).getD n []) = true := by
    rw [hget]
    exact hx
  have hcover := fa_cover (splitNl content) ((splitNl content).length + 1) 0 n
    (by omega) (Nat.zero_le n) hn hmark
  rcases hcover with ⟨b, hb, h1, h2⟩ | hall
  · exfalso
    have hct : coveredBy (findDeprecatedMethods content) n = true :=
      coveredBy_true_of _ n hb h1 h2
    rw [hct] at hcov
    cases hcov
  · have hsub : List.Sublist post ((splitNl content).drop (n + 1)) := by
      rw [hpost]
      exact keepLines_sublist _ _ _
    obtain ⟨k, hk1, hk2, hk3⟩ := mem_drop_exists_getD _ _ _ (hsub.subset hy)
    have hb := hall k (by omega) (by omega)
    rwa [hk3] at hb

/-! ## Claim theorems settled by direct evaluation -/

/-- C9: on the ten-line scenario document (marker on line 3, `func a() {`
on line 4, `  x = 1` on line 5, `}` on line 6, remaining lines unrelated)
the scanner finds exactly one block spanning lines 3-6 (0-based indices 2-5)
with identifier `a` and line count 4, and after removal the document has
exactly six lines. -/
theorem c9_scenario :
    findDeprecatedMethods scenarioDoc =
      [{ start := 2, endLine := 5, name := ['a'], lineCount := 4 }] ∧
    (splitNl (removeDeprecatedBlocks scenarioDoc (findDeprecatedMethods scenarioDoc))).length = 6 ∧
    transform scenarioDoc = "l1\nl2\nl7\nl8\nl9\nl10".toList := by
  decide

/-- C1 (code evaluated at the failing input): on a document whose marker at
0-based line 2 is followed by a declaration at line 3 that never opens a
brace before document end, the resolver does not fail; it silently emits a
block whose end line equals the declaration line, and the full run removes
those two lines and changes the document, contradicting the claimed
Unresolved-body failure with no write. -/
theorem c1_no_body_defaults_to_decl_line :
    findDeprecatedMethods noBodyDoc =
      [{ start := 2, endLine := 3, name := ['f'], lineCount := 2 }] ∧
    transform noBodyDoc = "a\nb\nplain\nplain2".toList ∧
    transform noBodyDoc ≠ noBodyDoc := by
  decide

/-- C3 (code evaluated at the failing input): given two overlapping blocks
([0,2] and [1,3]) over a four-line document, the executor performs no
disjointness check and deletes anyway, removing every line, instead of
failing with a "conflicting blocks" condition and zero deletions. -/
theorem c3_overlap_not_rejected :
    removeLines overlappingBlocks fourLines = [] ∧
    removeLines overlappingBlocks fourLines ≠ fourLines := by
  decide

/-- C2 counterexample: the text `a\n\n\nb` contains a maximal run of exactly
two empty lines (fewer than three), yet the normalizer changes it, collapsing
it to one empty line; and `a\n\n\n\nb`, whose maximal run has three empty
lines, is collapsed to one empty line, not the claimed two. -/
theorem c2_counterexample :
    cleanEmptyLines "a\n\n\nb".toList = "a\n\nb".toList ∧
    "a\n\nb".toList ≠ "a\n\n\nb".toList ∧
    splitNl "a\n\n\nb".toList = [['a'], [], [], ['b']] ∧
    cleanEmptyLines "a\n\n\n\nb".toList = "a\n\nb".toList ∧
    splitNl "a\n\n\n\nb".toList = [['a'], [], [], [], ['b']] ∧
    splitNl "a\n\nb".toList = [['a'], [], ['b']] := by
  decide

/-- C6 counterexample: on a document whose only marker (0-based line 0) is
followed solely by a blank line and a pure comment line, the scanner emits
no block and continues, but it does not report the discarded marker: the
scanner's printed output is empty, refuting the "reports it" part of the
claim. -/
theorem c6_counterexample :
    occursIn deprecatedMarker ((splitNl taillessMarkerDoc).getD 0 []) = true ∧
    blankOrComment ((splitNl taillessMarkerDoc).getD 1 []) = true ∧
    blankOrComment ((splitNl taillessMarkerDoc).getD 2 []) = true ∧
    (splitNl taillessMarkerDoc).length = 3 ∧
    findDeprecatedMethods taillessMarkerDoc = [] ∧
    scanReports taillessMarkerDoc = [] := by
  decide

/-- C10 counterexample: on input `\n\nx` the normalizer leaves the text
unchanged (only two newline characters), so its output starts with two
consecutive empty lines, refuting "the output never contains two or more
consecutive empty lines". -/
theorem c10_counterexample :
    cleanEmptyLines "\n\nx".toList = "\n\nx".toList ∧
    splitNl (cleanEmptyLines "\n\nx".toList) = [[], [], ['x']] := by
  decide

/-- C2 (amended): the normalizer works on newline characters, not empty
lines: for a text decomposed around a maximal newline run (`x` not ending
and `y` not starting with a newline), a run of `n ≥ 3` newlines is replaced
by exactly two newline characters and a shorter run is kept unchanged, the
surrounding text being normalized independently. -/
theorem c2_amended_newline_run_collapse (x y : List Char) (n : Nat)
    (hx : x.getLast? ≠ some '\n') (hy : y.head? ≠ some '\n') (hn : 1 ≤ n) :
    cleanEmptyLines (x ++ List.replicate n '\n' ++ y) =
      cleanEmptyLines x ++ List.replicate (if 3 ≤ n then 2 else n) '\n' ++ cleanEmptyLines y := by
  have hrun : cleanAux (List.replicate n '\n' ++ y) 0 =
      List.replicate (if 3 ≤ n then 2 else n) '\n' ++ cleanAux y 0 := by
    rw [cleanAux_replicate_append, cleanAux_eq_emit_append y hy]
    simp [emitNl]
  match x with
  | [] =>
    simpa [cleanEmptyLines, cleanAux, emitNl] using hrun
  | c :: x' =>
    unfold cleanEmptyLines
    rw [List.append_assoc, cleanAux_append_of_ne_nil _ _ (by simp) hx 0, hrun,
      List.append_assoc]

/-- Witness for `c2_amended_newline_run_collapse` at `x = "a"`, `n = 4`,
`y = "b"`. -/
theorem c2_amended_witness :
    cleanEmptyLines ("a".toList ++ List.replicate 4 '\n' ++ "b".toList) =
      cleanEmptyLines "a".toList ++ List.replicate (if 3 ≤ 4 then 2 else 4) '\n' ++
        cleanEmptyLines "b".toList :=
  c2_amended_newline_run_collapse "a".toList "b".toList 4 (by decide) (by decide) (by decide)

/-- C10 (amended): the normalizer's output never contains three or more
consecutive newline characters, so no interior run of two or more empty
lines survives; runs of empty lines can persist only where they correspond
to at most two newline characters (e.g. at the document boundary). -/
theorem c10_amended_no_triple_newline (content : List Char) :
    occursIn ['\n', '\n', '\n'] (cleanEmptyLines content) = false :=
  noTriple_cleanAux content 0

/-- C7: for every document the scanner's block list is strictly ascending by
start line and pairwise disjoint (after a block is resolved, scanning
resumes strictly past its end line, so no marker inside a found block's
body yields a block). -/
theorem c7_blocks_ascending_disjoint (content : List Char) :
    List.Pairwise (fun a b => a.start < b.start) (findDeprecatedMethods content) ∧
    List.Pairwise DisjointBlocks (findDeprecatedMethods content) := by
  have hp := fa_pairwise (splitNl content) ((splitNl content).length + 1) 0
  constructor
  · refine hp.imp_of_mem ?_
    intro a b ha _ hrel
    have := fa_mem (splitNl content) ((splitNl content).length + 1) 0 a ha
    omega
  · exact hp.imp (fun h => Or.inl h)

/-- C6 (amended): a marker line followed only by blank or pure-comment
lines until end of document yields no block (so no deletion derives from
it) and the run continues; but the discarded marker is not reported -- the
scanner's printed report list contains no entry for it. -/
theorem c6_amended_tailless_marker_discarded (content : List Char) (m : Nat)
    (hmark : occursIn deprecatedMarker ((splitNl content).getD m []) = true)
    (hbc : ∀ k, k < (splitNl content).length → m < k →
      blankOrComment ((splitNl content).getD k []) = true) :
    (∀ b ∈ findDeprecatedMethods content, b.start ≠ m) ∧
    (∀ r ∈ scanReports content, r.firstLine ≠ m + 1) := by
  have h1 : ∀ b ∈ findDeprecatedMethods content, b.start ≠ m :=
    fa_no_block_at (splitNl content) m hbc ((splitNl content).length + 1) 0
  refine ⟨h1, ?_⟩
  intro r hr
  simp only [scanReports, List.mem_map] at hr
  obtain ⟨b, hb, rfl⟩ := hr
  have := h1 b hb
  simp only [reportOf]
  omega

/-- Witness for `c6_amended_tailless_marker_discarded` on the concrete
document whose marker at line 0 is followed by a blank and a comment
line. -/
theorem c6_amended_witness :
    (∀ b ∈ findDeprecatedMethods taillessMarkerDoc, b.start ≠ 0) ∧
    (∀ r ∈ scanReports taillessMarkerDoc, r.firstLine ≠ 0 + 1) :=
  c6_amended_tailless_marker_discarded taillessMarkerDoc 0 (by decide) (by decide)

/-- C8: for every document and every set of pairwise-disjoint blocks (each
with `start ≤ end`), the executor's descending-start deletion produces
output identical to the single forward pass keeping exactly the lines not
covered by any block. -/
theorem c8_descending_delete_eq_forward_pass (ls : List (List Char)) (blocks : List Block)
    (h1 : ∀ b ∈ blocks, b.start ≤ b.endLine)
    (h2 : List.Pairwise DisjointBlocks blocks) :
    removeLines blocks ls = forwardPassSpec blocks ls :=
  removeLines_eq_forward blocks ls h1 h2

/-- Witness for `c8_descending_delete_eq_forward_pass` on two disjoint
blocks over a four-line document. -/
theorem c8_witness :
    (∀ b ∈ [Block.mk 0 1 ['m'] 2, Block.mk 3 3 ['n'] 1], b.start ≤ b.endLine) ∧
    List.Pairwise DisjointBlocks [Block.mk 0 1 ['m'] 2, Block.mk 3 3 ['n'] 1] ∧
    removeLines [Block.mk 0 1 ['m'] 2, Block.mk 3 3 ['n'] 1] fourLines =
      forwardPassSpec [Block.mk 0 1 ['m'] 2, Block.mk 3 3 ['n'] 1] fourLines :=
  ⟨by decide, by decide,
    c8_descending_delete_eq_forward_pass fourLines
      [Block.mk 0 1 ['m'] 2, Block.mk 3 3 ['n'] 1] (by decide) (by decide)⟩

/-- C5: conservation. For every run on a document, the line count before
removal equals the line count after removal (before normalization) plus the
total number of removed lines (the sum over blocks of
`end_line - start_line + 1`, each block's stored `lineCount`); equivalently
`lines_before - total_removed = lines_after`. -/
theorem c5_conservation (content : List Char) :
    (splitNl content).length =
      (removeLines (findDeprecatedMethods content) (splitNl content)).length +
        ((findDeprecatedMethods content).map (fun b => b.lineCount)).sum := by
  have hbseq : findDeprecatedMethods content =
      findFromAux (splitNl content) ((splitNl content).length + 1) 0 := rfl
  have hmem := fa_mem (splitNl content) ((splitNl content).length + 1) 0
  have hpw := fa_pairwise (splitNl content) ((splitNl content).length + 1) 0
  rw [← hbseq] at hmem hpw
  have hdisj : List.Pairwise DisjointBlocks (findDeprecatedMethods content) :=
    hpw.imp (fun h => Or.inl h)
  have h1 : ∀ b ∈ findDeprecatedMethods content, b.start ≤ b.endLine := by
    intro b hb
    have := hmem b hb
    omega
  have hperm := pySortDesc_perm (findDeprecatedMethods content)
  have hbounds : ∀ b ∈ pySortDesc (findDeprecatedMethods content),
      b.start ≤ b.endLine ∧ b.endLine < (splitNl content).length := by
    intro b hb
    have := hmem b (hperm.mem_iff.mp hb)
    omega
  have hfold := foldl_del_length (pySortDesc (findDeprecatedMethods content))
    (splitNl content) (pySortDesc_desc _ h1 hdisj) hbounds
  have hsum : ((pySortDesc (findDeprecatedMethods content)).map
      (fun b => b.endLine + 1 - b.start)).sum =
      ((findDeprecatedMethods content).map (fun b => b.lineCount)).sum := by
    have hmc : (findDeprecatedMethods content).map (fun b => b.endLine + 1 - b.start) =
        (findDeprecatedMethods content).map (fun b => b.lineCount) :=
      List.map_congr_left (fun b hb => ((hmem b hb).2.2.2).symm)
    rw [(hperm.map (fun b => b.endLine + 1 - b.start)).sum_eq, hmc]
  rw [hsum] at hfold
  unfold removeLines
  omega

/-- C4: the output of one full transformation (scan, remove, normalize) is a
fixed point: the scanner finds zero blocks in it, a second removal with the
empty block list returns it unchanged, and the transformation applied again
returns it unchanged. -/
theorem c4_transform_fixed_point (content : List Char) :
    findDeprecatedMethods (transform content) = [] ∧
    removeDeprecatedBlocks (transform content) [] = transform content ∧
    transform (transform content) = transform content := by
  have hrm : ∀ x : List Char, removeDeprecatedBlocks x [] = x := fun x => joinNl_splitNl x
  have hT : ∀ x : List Char, transform x =
      if (findDeprecatedMethods x).isEmpty then x
      else cleanEmptyLines (removeDeprecatedBlocks x (findDeprecatedMethods x)) :=
    fun x => rfl
  have hfind : findDeprecatedMethods (transform content) = [] := by
    by_cases hempty : (findDeprecatedMethods content).isEmpty = true
    · have heq : transform content = content := by
        rw [hT, if_pos hempty]
      rw [heq]
      exact List.isEmpty_iff.mp hempty
    · have heq : transform content = cleanEmptyLines (removeDeprecatedBlocks content
          (findDeprecatedMethods content)) := by
        rw [hT, if_neg hempty]
      have hkeep : removeLines (findDeprecatedMethods content) (splitNl content) =
          keepLines (findDeprecatedMethods content) 0 (splitNl content) :=
        removeLines_eq_forward _ _ (find_blocks_le content) (find_blocks_disjoint content)
      have hben : BenignLines (keepLines (findDeprecatedMethods content) 0 (splitNl content)) :=
        benign_kept content
      have hrdb : removeDeprecatedBlocks content (findDeprecatedMethods content) =
          joinNl (keepLines (findDeprecatedMethods content) 0 (splitNl content)) := by
        unfold removeDeprecatedBlocks
        rw [hkeep]
      cases hk : keepLines (findDeprecatedMethods content) 0 (splitNl content) with
      | nil =>
        have ht : transform content = [] := by
          rw [heq, hrdb, hk]
          rfl
        rw [ht]
        rfl
      | cons k0 krest =>
        have hnl : ∀ l ∈ keepLines (findDeprecatedMethods content) 0 (splitNl content),
            '\n' ∉ l := by
          intro l hl
          exact splitNl_no_nl content l ((keepLines_sublist _ _ _).subset hl)
        have hjs : splitNl (joinNl (keepLines (findDeprecatedMethods content) 0
            (splitNl content))) = keepLines (findDeprecatedMethods content) 0 (splitNl content) :=
          splitNl_joinNl _ (by rw [hk]; simp) hnl
        have hben2 : BenignLines (splitNl (transform content)) := by
          rw [heq, hrdb]
          have hsub2 := splitNl_clean_sublist
            (joinNl (keepLines (findDeprecatedMethods content) 0 (splitNl content)))
          rw [hjs] at hsub2
          exact benign_sublist hsub2 hben
        exact benign_find_nil _ hben2 _ 0
  refine ⟨hfind, hrm _, ?_⟩
  rw [hT (transform content), hfind]
  rfl
